import Mathlib

/-!
Shallow embedding of the KTANE manual application (src/src/app.rs and
src/src/main.rs) and proofs about its per-module resolvers.

The two source files are near-identical front-end variants; the resolver
logic embedded here (tables, transition code) is byte-for-byte shared
between them except where noted.  Rust u8 / usize counters are embedded
as Nat (no arithmetic here ever approaches an overflow boundary: the
relevant values are clamped to at most 26 by guards in the code that are
part of the embedding).  Fallible table indexing is embedded as
List.get?, so an out-of-range index (a Rust panic) shows up as none.
-/

namespace Ktane

/-! ### Simon Says resolver (src/src/main.rs lines 95-158, identical in app.rs) -/

inductive SimonColor where
  | red
  | blue
  | green
  | yellow
deriving DecidableEq

/-- `SimonSays::TABLE` from the source: 24-entry substitution table. -/
def simonTable : List SimonColor :=
  [ .blue, .yellow, .green, .red,      -- No vowel, 0 strikes
    .red, .blue, .yellow, .green,      -- No vowel, 1 strike
    .yellow, .green, .blue, .red,      -- No vowel, 2 strikes
    .blue, .red, .yellow, .green,      -- Vowel, 0 strikes
    .yellow, .green, .blue, .red,      -- Vowel, 1 strike
    .green, .red, .yellow, .blue ]     -- Vowel, 2 strikes

/-- The `match color` index inside `SimonSays::convert`. -/
def colorIndex : SimonColor → Nat
  | .red => 0
  | .blue => 1
  | .green => 2
  | .yellow => 3

/-- The index expression of `SimonSays::convert`. -/
def simonIndex (vowel : Bool) (strikes : Nat) (c : SimonColor) : Nat :=
  (if vowel then 12 else 0) + strikes * 4 + colorIndex c

/-- `SimonSays::convert`: table lookup at `simonIndex` (an out-of-range
index would panic in Rust, embedded as `none`). -/
def simonConvert (vowel : Bool) (strikes : Nat) (c : SimonColor) : Option SimonColor :=
  simonTable.get? (simonIndex vowel strikes c)

/-! ### Wire Sequences resolver (src/src/app.rs lines 83-88, 359-363, 1128-1147) -/

structure WireSequence where
  red : Nat
  blue : Nat
  black : Nat
deriving DecidableEq

/-- `WireSequence::default()`: all three counters start at 0. -/
def wireSeqInit : WireSequence := ⟨0, 0, 0⟩

/-- `Application::WIRE_SEQUENCE`: the shared 27-entry instruction table. -/
def wireTable : List String :=
  [ "C", "B", "A", "AC", "B", "AC", "ABC", "AB", "B",       -- Red
    "B", "AC", "B", "A", "B", "BC", "C", "AC", "A",         -- Blue
    "ABC", "AC", "B", "AC", "B", "BC", "AB", "C", "C" ]     -- Black

/-- Click on the Red button: `if clicked && self.wire_sequence.red < 8 { red += 1 }`. -/
def clickRed (w : WireSequence) : WireSequence :=
  if w.red < 8 then { w with red := w.red + 1 } else w

/-- Click on the Blue button (same guard, field blue). -/
def clickBlue (w : WireSequence) : WireSequence :=
  if w.blue < 8 then { w with blue := w.blue + 1 } else w

/-- Click on the Black button (same guard, field black). -/
def clickBlack (w : WireSequence) : WireSequence :=
  if w.black < 8 then { w with black := w.black + 1 } else w

/-- What the Red button shows: `WIRE_SEQUENCE[self.wire_sequence.red]`. -/
def displayRed (w : WireSequence) : Option String := wireTable.get? w.red

/-- Blue button label: `WIRE_SEQUENCE[self.wire_sequence.blue + 9]`. -/
def displayBlue (w : WireSequence) : Option String := wireTable.get? (w.blue + 9)

/-- Black button label: `WIRE_SEQUENCE[self.wire_sequence.black + 18]`. -/
def displayBlack (w : WireSequence) : Option String := wireTable.get? (w.black + 18)

/-! ### Complicated Wires resolver (src/src/app.rs lines 341-358, 1107-1127) -/

/-- `Application::COMPLICATED_WIRES`: the 16-entry instruction table. -/
def cwTable : List String :=
  [ "ALWAYS", "NEVER", "ALWAYS", "2+ BATTERIES",
    "LAST DIGIT EVEN", "PARALLEL PORT", "NEVER", "PARALLEL PORT",
    "LAST DIGIT EVEN", "2+ BATTERIES", "ALWAYS", "2+ BATTERIES",
    "LAST DIGIT EVEN", "LAST DIGIT EVEN", "PARALLEL PORT", "NEVER" ]

/-- One indicator button click: `self.state ^= 1 << i` where i is the
position of the label in `["LED", "STAR", "BLUE", "RED"]`. -/
def cwToggle (s : Nat) (i : Fin 4) : Nat := s ^^^ (1 <<< i.val)

/-- The flag-set state reached by a sequence of indicator toggles,
starting from the all-off initial state (`self.state = 0` on entry). -/
def cwRun (ts : List (Fin 4)) : Nat := ts.foldl cwToggle 0

/-- The displayed instruction: `COMPLICATED_WIRES[self.state]` (a Rust
panic on an out-of-range index is embedded as `none`). -/
def cwDisplay (s : Nat) : Option String := cwTable.get? s

/-- A flag is currently on iff it has been toggled an odd number of times. -/
def flagOn (ts : List (Fin 4)) (i : Fin 4) : Bool := decide (ts.count i % 2 = 1)

/-! ### Keypad resolver (src/src/app.rs lines 28-71, 173-272, 798-867)

The symbol alphabet follows the app.rs variant (whose last grid symbol is
`Yot`; the main.rs variant names it `AntiN`, all other logic identical). -/

inductive KeypadButton where
  | none
  | O
  | A
  | Lambda
  | N
  | Person
  | H
  | AntiC
  | Euro
  | Q
  | EmptyStar
  | Question
  | Copyright
  | W
  | X
  | R
  | N6
  | Paragraph
  | B
  | Smile
  | Trident
  | C
  | Snake
  | FilledStar
  | Puzzle
  | AE
  | Yot
  | Omega
deriving DecidableEq

/-- `KeypadButton::name`: the display name (5 irregular overrides, the
rest are the strum `as_ref` variant names; the source really does say
"Empty Stat"). -/
def KeypadButton.name : KeypadButton → String
  | .none => "None"
  | .O => "O"
  | .A => "A"
  | .Lambda => "Lambda"
  | .N => "N"
  | .Person => "Person"
  | .H => "H"
  | .AntiC => "Anti-C"
  | .Euro => "Euro"
  | .Q => "Q"
  | .EmptyStar => "Empty Stat"
  | .Question => "Question"
  | .Copyright => "Copyright"
  | .W => "W"
  | .X => "X"
  | .R => "R"
  | .N6 => "6"
  | .Paragraph => "Paragraph"
  | .B => "B"
  | .Smile => "Smile"
  | .Trident => "Trident"
  | .C => "C"
  | .Snake => "Snake"
  | .FilledStar => "Filled Star"
  | .Puzzle => "Puzzle"
  | .AE => "AE"
  | .Yot => "Yot"
  | .Omega => "Omega"

/-- `Application::KEYPAD_COLUMNS`: the 6 "symbol appears in column"
legality lists, 7 symbols each. -/
def keypadColumns : List (List KeypadButton) :=
  [ [.O, .A, .Lambda, .N, .Person, .H, .AntiC],
    [.Euro, .O, .AntiC, .Q, .EmptyStar, .H, .Question],
    [.Copyright, .W, .Q, .X, .R, .Lambda, .EmptyStar],
    [.N6, .Paragraph, .B, .Person, .X, .Question, .Smile],
    [.Trident, .Smile, .B, .C, .Paragraph, .Snake, .FilledStar],
    [.N6, .Euro, .Puzzle, .AE, .Trident, .Yot, .Omega] ]

/-- The selection-toggle step on a tapped symbol.  The selection (the key
set of the `keypad` HashMap) is embedded as a duplicate-free list:
`if self.keypad.remove(&button).is_none() && self.keypad.len() < 4 {
self.keypad.insert(button, 0); }`, guarded by `button != None`. -/
def tap (b : KeypadButton) (sel : List KeypadButton) : List KeypadButton :=
  if b = KeypadButton.none then sel
  else if b ∈ sel then sel.erase b
  else if sel.length < 4 then b :: sel
  else sel

/-- The selection after a sequence of taps starting from the empty map. -/
def keypadRun (taps : List KeypadButton) : List KeypadButton :=
  taps.foldl (fun s b => tap b s) []

/-- The selected symbols that appear in a column list, in column order
(the order in which the inner `for row in 0..7` loop assigns ranks 1..). -/
def hits (sel col : List KeypadButton) : List KeypadButton :=
  col.filter (fun b => sel.contains b)

/-- The first column accepted by the `for column in 0..6` loop: the loop
keeps a column exactly when its final `i > 4`, and `i` ends at
`1 + (hits sel col).length`. -/
def winningColumn (sel : List KeypadButton) : Option (List KeypadButton) :=
  keypadColumns.find? (fun col => decide (4 ≤ (hits sel col).length))

/-- The rank recorded for each selected symbol: position within the
winning column (1-based); 0 when no column was accepted (the final
`values_mut().for_each(|v| *v = 0)`). -/
def keypadRanks (sel : List KeypadButton) (b : KeypadButton) : Nat :=
  match winningColumn sel with
  | some col => if (hits sel col).contains b then (hits sel col).indexOf b + 1 else 0
  | none => 0

/-- The output label: the selected symbols sorted by rank (which is
exactly `hits sel col` order, since ranks are their 1-based positions in
the winning column), each display name followed by one space; cleared
when no column was accepted. -/
def keypadLabel (sel : List KeypadButton) : String :=
  match winningColumn sel with
  | some col => (hits sel col).foldl (fun a b => a ++ b.name ++ " ") ""
  | none => ""

/-- The winning column as the amended claim words it: the first column
list that contains all currently-selected symbols, provided exactly 4
symbols are selected (with fewer selected the source accepts no column,
since its acceptance test requires at least four selected symbols to
appear in the column). -/
def claimWins (sel : List KeypadButton) : Option (List KeypadButton) :=
  keypadColumns.find? (fun col => decide (sel.length = 4) && sel.all (fun b => col.contains b))

/-! ### Passwords resolver (src/src/app.rs lines 364-369, 1155-1229)

The five free-text fields are embedded as lists of characters (the Rust
`String`s hold only ASCII upper-case letters after
`make_ascii_uppercase`, so byte length and membership coincide with
character length and membership). -/

/-- `Application::PASSWORDS`: the fixed 35-word candidate table (the word
THINK appears twice, as in the source). -/
def PASSWORDS : List String :=
  [ "ABOUT", "AFTER", "AGAIN", "BELOW", "COULD", "EVERY", "FIRST", "FOUND",
    "GREAT", "HOUSE", "LARGE", "LEARN", "NEVER", "OTHER", "PLACE", "PLANT",
    "POINT", "RIGHT", "SMALL", "SOUND", "SPELL", "STILL", "STUDY", "THEIR",
    "THERE", "THESE", "THINK", "THINK", "THREE", "WATER", "WHERE", "WHICH",
    "WORLD", "WOULD", "WRITE" ]

/-- The filter predicate from the source:
`for (i, c) in word.chars().enumerate() { if self.password[i].len() > 0
&& !self.password[i].contains(c) { return false; } } return true;`.
All table words have 5 characters and the field array has 5 entries, so
the `getD` default is never reached on the inputs the program uses. -/
def survives (p : List (List Char)) (w : String) : Bool :=
  w.data.enum.all fun ic =>
    !(decide (0 < (p.getD ic.1 []).length)) || (p.getD ic.1 []).contains ic.2

/-- The output label after an edit: the fold
`a.push_str(b); a.push_str(" ")` over the filtered table. -/
def passwordLabel (p : List (List Char)) : String :=
  (PASSWORDS.filter (survives p)).foldl (fun a b => a ++ b ++ " ") ""

/-- The survival condition in the words of the spec: for every position i
in 0..5 whose field is non-empty, the word letter at that position is a
member of the observed set of field i. -/
def claimSurvives (p : List (List Char)) (w : String) : Prop :=
  ∀ i : Fin 5, p.getD i.val [] ≠ [] → w.data.getD i.val 'A' ∈ p.getD i.val []

instance (p : List (List Char)) (w : String) : Decidable (claimSurvives p w) := by
  unfold claimSurvives; infer_instance

/-! ### Memory resolver and the global dispatcher (src/src/app.rs lines 73-81, 691-694, 738-755, 946-1100)

The dispatcher reuses one `state: usize` field across all modules; the
global machine below tracks `(module, state)` together with the Memory
record (the only accumulated state that the claims under proof read).
One step is one `update` invocation processing at most one button event;
the Rust `panic!` arms (Wires and Memory on an out-of-range state) and
the out-of-range table index in the Complicated Wires label are embedded
as `none`. -/

inductive Module where
  | menu
  | wires
  | button
  | keypad
  | simonSays
  | whosOnFirst
  | memory
  | morseCode
  | complicatedWires
  | wireSequences
  | mazes
  | passwords
  | knobs
deriving DecidableEq

/-- The six recorded Memory values (`struct Memory`, u8 fields,
`Default` = all zero). -/
structure MemoryRec where
  position1 : Nat
  position2 : Nat
  label1 : Nat
  label2 : Nat
  label3 : Nat
  label4 : Nat
deriving DecidableEq

/-- `Memory::default()`. -/
def MemoryRec.default : MemoryRec := ⟨0, 0, 0, 0, 0, 0⟩

/-- One user event per `update` call.  `idle` is a frame with no click.
`choice n` is the (n+1)-th numbered option button of the current Memory
state; `wiresChoice n` the (n+1)-th wire-count button; index arguments
outside the range of buttons that exist on screen mean no event. -/
inductive GInput where
  | idle
  | menuSelect (m : Module)
  | menuButton
  | reset
  | wiresChoice (n : Nat)
  | choice (n : Nat)
  | whosPosition (i : Nat)
  | whosButton (i : Nat)
  | compToggle (i : Nat)
  | passwordField (i : Nat)
deriving DecidableEq

/-- The `match self.state` of the Memory arm.  In every state the arm
runs on each frame; in state 0 it unconditionally executes
`self.memory = Memory::default()` before testing the option buttons, and
the Reset button of states 1..=9 only sets `self.state = 0` (it does not
touch the record).  `none` is the `panic!` arm. -/
def memoryMatch (s : Nat) (m : MemoryRec) (inp : GInput) : Option (Nat × MemoryRec) :=
  match s with
  | 0 =>
    match inp with
    | .choice 0 => some (1, { MemoryRec.default with position1 := 2 })
    | .choice 1 => some (1, { MemoryRec.default with position1 := 2 })
    | .choice 2 => some (1, { MemoryRec.default with position1 := 3 })
    | .choice 3 => some (1, { MemoryRec.default with position1 := 4 })
    | _ => some (0, MemoryRec.default)
  | 1 =>
    match inp with
    | .reset => some (0, m)
    | .choice n => if n < 4 then some (2, { m with label1 := n + 1 }) else some (1, m)
    | _ => some (1, m)
  | 2 =>
    match inp with
    | .reset => some (0, m)
    | .choice 0 => some (4, { m with label2 := 4 })
    | .choice 1 => some (3, { m with position2 := m.position1 })
    | .choice 2 => some (3, { m with position2 := 1 })
    | .choice 3 => some (3, { m with position2 := m.position1 })
    | _ => some (2, m)
  | 3 =>
    match inp with
    | .reset => some (0, m)
    | .choice n => if n < 4 then some (5, { m with label2 := n + 1 }) else some (3, m)
    | _ => some (3, m)
  | 4 =>
    match inp with
    | .reset => some (0, m)
    | .choice n => if n < 4 then some (5, { m with position2 := n + 1 }) else some (4, m)
    | _ => some (4, m)
  | 5 =>
    match inp with
    | .reset => some (0, m)
    | .choice 0 => some (7, { m with label3 := m.label2 })
    | .choice 1 => some (7, { m with label3 := m.label1 })
    | .choice 2 => some (6, m)
    | .choice 3 => some (7, { m with label3 := 4 })
    | _ => some (5, m)
  | 6 =>
    match inp with
    | .reset => some (0, m)
    | .choice n => if n < 4 then some (7, { m with label3 := n + 1 }) else some (6, m)
    | _ => some (6, m)
  | 7 =>
    match inp with
    | .reset => some (0, m)
    | .choice n => if n < 4 then some (8, m) else some (7, m)
    | _ => some (7, m)
  | 8 =>
    match inp with
    | .reset => some (0, m)
    | .choice n => if n < 4 then some (9, { m with label4 := n + 1 }) else some (8, m)
    | _ => some (8, m)
  | 9 =>
    match inp with
    | .reset => some (0, m)
    | _ => some (9, m)
  | _ => none

/-- The full application state read by the state-range claims. -/
structure GState where
  module : Module
  state : Nat
  memory : MemoryRec
deriving DecidableEq

/-- `Application::new`: module Menu, state 0, default record. -/
def initG : GState := ⟨.menu, 0, MemoryRec.default⟩

/-- The Menu arm: clicking a module button enters that module with
state 0 (the menu lists every module but itself). -/
def menuStep (s : Nat) (m : MemoryRec) (inp : GInput) : Option GState :=
  match inp with
  | .menuSelect .menu => some ⟨.menu, s, m⟩
  | .menuSelect mod => some ⟨mod, 0, m⟩
  | _ => some ⟨.menu, s, m⟩

/-- The Wires arm: Menu resets module and state; Reset (shown only when
the state is non-zero) sets the state to 0; in state 0 the four
wire-count buttons go to states 1..4; then `match self.state` panics on
a state outside 0..=4. -/
def wiresStep (s : Nat) (m : MemoryRec) (inp : GInput) : Option GState :=
  match inp with
  | .menuButton => some ⟨.menu, 0, m⟩
  | .reset => some ⟨.wires, 0, m⟩
  | .wiresChoice n =>
    if s = 0 then
      if n < 4 then some ⟨.wires, n + 1, m⟩ else some ⟨.wires, s, m⟩
    else if s ≤ 4 then some ⟨.wires, s, m⟩ else none
  | _ => if s ≤ 4 then some ⟨.wires, s, m⟩ else none

/-- The arms of the static display modules (Button, Keypad, SimonSays,
MorseCode, WireSequences, Mazes, Knobs): their Menu buttons do not touch
the shared state field. -/
def plainStep (mod : Module) (s : Nat) (m : MemoryRec) (inp : GInput) : Option GState :=
  match inp with
  | .menuButton => some ⟨.menu, s, m⟩
  | _ => some ⟨mod, s, m⟩

/-- The WhosOnFirst arm (app.rs guided variant): state 0 lists the 28
displayed words (clicking the i-th goes to state i+1), states 1..=28
list the 28 button labels (the i-th goes to state 29+i), states 29..=56
display the response list; Reset returns to 0; Menu keeps the state. -/
def whosStep (s : Nat) (m : MemoryRec) (inp : GInput) : Option GState :=
  match inp with
  | .menuButton => some ⟨.menu, s, m⟩
  | .reset => if 1 ≤ s ∧ s ≤ 56 then some ⟨.whosOnFirst, 0, m⟩ else some ⟨.whosOnFirst, s, m⟩
  | .whosPosition i =>
    if s = 0 ∧ i < 28 then some ⟨.whosOnFirst, i + 1, m⟩ else some ⟨.whosOnFirst, s, m⟩
  | .whosButton i =>
    if (1 ≤ s ∧ s ≤ 28) ∧ i < 28 then some ⟨.whosOnFirst, 29 + i, m⟩
    else some ⟨.whosOnFirst, s, m⟩
  | _ => some ⟨.whosOnFirst, s, m⟩

/-- The Memory arm: the Menu click switches the module, then the
`match self.state` still runs in the same call with no option clicked;
every other event runs the match with that event. -/
def memStep (s : Nat) (m : MemoryRec) (inp : GInput) : Option GState :=
  match inp with
  | .menuButton => (memoryMatch s m .idle).map fun sm => ⟨.menu, sm.1, sm.2⟩
  | _ => (memoryMatch s m inp).map fun sm => ⟨.memory, sm.1, sm.2⟩

/-- The ComplicatedWires arm: Menu and Reset zero the state, a toggle
xors one of the low 4 bits; afterwards the label indexes the 16-entry
table with the state, so a state outside 0..=15 would panic there. -/
def cwStep (s : Nat) (m : MemoryRec) (inp : GInput) : Option GState :=
  match inp with
  | .menuButton => some ⟨.menu, 0, m⟩
  | .reset => some ⟨.complicatedWires, 0, m⟩
  | .compToggle i =>
    if h : i < 4 then
      if cwToggle s ⟨i, h⟩ < 16 then some ⟨.complicatedWires, cwToggle s ⟨i, h⟩, m⟩ else none
    else if s < 16 then some ⟨.complicatedWires, s, m⟩ else none
  | _ => if s < 16 then some ⟨.complicatedWires, s, m⟩ else none

/-- The Passwords arm (app.rs): Menu and Reset zero the state (the
focused-field index), clicking field i focuses it. -/
def passStep (s : Nat) (m : MemoryRec) (inp : GInput) : Option GState :=
  match inp with
  | .menuButton => some ⟨.menu, 0, m⟩
  | .reset => some ⟨.passwords, 0, m⟩
  | .passwordField i => if i < 5 then some ⟨.passwords, i, m⟩ else some ⟨.passwords, s, m⟩
  | _ => some ⟨.passwords, s, m⟩

/-- One `update` call of app.rs, restricted to the fields of `GState`:
dispatch on the active module. -/
def step (g : GState) (inp : GInput) : Option GState :=
  match g.module with
  | .menu => menuStep g.state g.memory inp
  | .wires => wiresStep g.state g.memory inp
  | .button => plainStep .button g.state g.memory inp
  | .keypad => plainStep .keypad g.state g.memory inp
  | .simonSays => plainStep .simonSays g.state g.memory inp
  | .whosOnFirst => whosStep g.state g.memory inp
  | .memory => memStep g.state g.memory inp
  | .morseCode => plainStep .morseCode g.state g.memory inp
  | .complicatedWires => cwStep g.state g.memory inp
  | .wireSequences => plainStep .wireSequences g.state g.memory inp
  | .mazes => plainStep .mazes g.state g.memory inp
  | .passwords => passStep g.state g.memory inp
  | .knobs => plainStep .knobs g.state g.memory inp

/-- Run a sequence of events from an arbitrary state; `none` once any
step panics. -/
def runFrom (g : GState) : List GInput → Option GState
  | [] => some g
  | i :: rest =>
    match step g i with
    | some g2 => runFrom g2 rest
    | none => none

/-- Run a sequence of events from the initial (menu) state. -/
def runG (inps : List GInput) : Option GState := runFrom initG inps

/-! ### Text normalizer shortening rule (spec section 4.1) -/

/-- Modelled from the spec: the label-shortening rule of the Text
Normalizer used by the word-association module in one source variant.
That variant is not under src/ (neither app.rs nor main.rs contains any
free-text normalization beyond upper-casing), so this definition follows
the words of the spec: "if the input has more than 4 characters,
collapse it to its first character concatenated with its last 3
characters ... Words of length ≤ 4 pass through unchanged." -/
def shorten (w : List Char) : List Char :=
  if 4 < w.length then w.take 1 ++ w.drop (w.length - 3) else w

/-! ## Theorems -/

/-- Claim C10: for every input word of length at most 4 characters,
normalization is the identity; for every word of more than 4 characters,
the normalized form is the first character of the word (its length-1
leading segment) concatenated with its last 3 characters. -/
theorem normalizer_shorten_spec (w : List Char) :
    shorten w = if 4 < w.length then w.take 1 ++ (w.reverse.take 3).reverse else w := by
  unfold shorten
  split
  · rw [← List.rtake_eq_reverse_take_reverse, List.rtake]
  · rfl

/-- Claim C4: for every strikes value in 0..=2, every vowel flag and
every entered color, `SimonSays::convert` returns the 24-entry table
entry at index `(vowel ? 12 : 0) + strikes*4 + colorIndex` (the index is
in range, so the lookup cannot panic); in particular vowel=false,
strikes=0, Red translates to Blue (index 0), and vowel=true, strikes=2,
Yellow translates to Blue (index 23). -/
theorem simon_says_convert_table (strikes : Nat) (h : strikes ≤ 2) (vowel : Bool)
    (c : SimonColor) :
    ∃ hlt : simonIndex vowel strikes c < 24,
      simonConvert vowel strikes c = some (simonTable.get ⟨simonIndex vowel strikes c, hlt⟩) ∧
      simonIndex false 0 .red = 0 ∧ simonIndex true 2 .yellow = 23 ∧
      simonConvert false 0 .red = some .blue ∧
      simonConvert true 2 .yellow = some .blue := by
  have hci : colorIndex c ≤ 3 := by cases c <;> simp [colorIndex]
  have hlt : simonIndex vowel strikes c < 24 := by
    unfold simonIndex; cases vowel <;> simp <;> omega
  have hlen : simonTable.length = 24 := by rfl
  refine ⟨hlt, ?_, by rfl, by rfl, by rfl, by rfl⟩
  exact List.get?_eq_get (by rw [hlen]; exact hlt)

/-- Witness for C4 at strikes = 2, vowel = true, color Yellow. -/
theorem simon_says_convert_table_witness :
    2 ≤ 2 ∧
      ∃ hlt : simonIndex true 2 .yellow < 24,
        simonConvert true 2 .yellow = some (simonTable.get ⟨simonIndex true 2 .yellow, hlt⟩) ∧
        simonIndex false 0 .red = 0 ∧ simonIndex true 2 .yellow = 23 ∧
        simonConvert false 0 .red = some .blue ∧
        simonConvert true 2 .yellow = some .blue :=
  ⟨by decide, simon_says_convert_table 2 (by decide) true .yellow⟩

/-- The red field after one click. -/
theorem clickRed_red (w : WireSequence) :
    (clickRed w).red = if w.red < 8 then w.red + 1 else w.red := by
  unfold clickRed; split <;> rfl

/-- The blue field after one click. -/
theorem clickBlue_blue (w : WireSequence) :
    (clickBlue w).blue = if w.blue < 8 then w.blue + 1 else w.blue := by
  unfold clickBlue; split <;> rfl

/-- The black field after one click. -/
theorem clickBlack_black (w : WireSequence) :
    (clickBlack w).black = if w.black < 8 then w.black + 1 else w.black := by
  unfold clickBlack; split <;> rfl

/-- After n clicks from 0 the red counter is min n 8. -/
theorem clickRed_iterate (n : Nat) : (clickRed^[n] wireSeqInit).red = min n 8 := by
  induction n with
  | zero => rfl
  | succ n ih =>
    rw [Function.iterate_succ_apply', clickRed_red, ih]
    split <;> omega

/-- After n clicks from 0 the blue counter is min n 8. -/
theorem clickBlue_iterate (n : Nat) : (clickBlue^[n] wireSeqInit).blue = min n 8 := by
  induction n with
  | zero => rfl
  | succ n ih =>
    rw [Function.iterate_succ_apply', clickBlue_blue, ih]
    split <;> omega

/-- After n clicks from 0 the black counter is min n 8. -/
theorem clickBlack_iterate (n : Nat) : (clickBlack^[n] wireSeqInit).black = min n 8 := by
  induction n with
  | zero => rfl
  | succ n ih =>
    rw [Function.iterate_succ_apply', clickBlack_black, ih]
    split <;> omega

/-- Claim C5: for each of the three channels (red at table offset 0,
blue at 9, black at 18), after n increment clicks from 0 the counter is
min n 8 — so each of the first eight clicks increases it by exactly 1,
the counter never exceeds 8, and after eight clicks it is 8; the
displayed entry is the shared 27-entry table at counter + offset (always
in range); and a further click at 8 is a no-op. -/
theorem wire_sequence_counters (n : Nat) :
    (clickRed^[n] wireSeqInit).red = min n 8 ∧
    (clickBlue^[n] wireSeqInit).blue = min n 8 ∧
    (clickBlack^[n] wireSeqInit).black = min n 8 ∧
    displayRed (clickRed^[n] wireSeqInit) = wireTable.get? (min n 8) ∧
    displayBlue (clickBlue^[n] wireSeqInit) = wireTable.get? (min n 8 + 9) ∧
    displayBlack (clickBlack^[n] wireSeqInit) = wireTable.get? (min n 8 + 18) ∧
    (displayRed (clickRed^[n] wireSeqInit)).isSome = true ∧
    (displayBlue (clickBlue^[n] wireSeqInit)).isSome = true ∧
    (displayBlack (clickBlack^[n] wireSeqInit)).isSome = true ∧
    clickRed (clickRed^[8] wireSeqInit) = clickRed^[8] wireSeqInit ∧
    clickBlue (clickBlue^[8] wireSeqInit) = clickBlue^[8] wireSeqInit ∧
    clickBlack (clickBlack^[8] wireSeqInit) = clickBlack^[8] wireSeqInit := by
  have hlen : wireTable.length = 27 := by rfl
  have hr := clickRed_iterate n
  have hb := clickBlue_iterate n
  have hk := clickBlack_iterate n
  have hmin : min n 8 ≤ 8 := by omega
  refine ⟨hr, hb, hk, ?_, ?_, ?_, ?_, ?_, ?_, ?_, ?_, ?_⟩
  · unfold displayRed; rw [hr]
  · unfold displayBlue; rw [hb]
  · unfold displayBlack; rw [hk]
  · unfold displayRed; rw [hr, List.get?_eq_get (by omega)]; rfl
  · unfold displayBlue; rw [hb, List.get?_eq_get (by omega)]; rfl
  · unfold displayBlack; rw [hk, List.get?_eq_get (by omega)]; rfl
  · have h8 : (clickRed^[8] wireSeqInit).red = 8 := (clickRed_iterate 8).trans (by norm_num)
    generalize clickRed^[8] wireSeqInit = w at h8 ⊢
    unfold clickRed; rw [h8]; simp
  · have h8 : (clickBlue^[8] wireSeqInit).blue = 8 := (clickBlue_iterate 8).trans (by norm_num)
    generalize clickBlue^[8] wireSeqInit = w at h8 ⊢
    unfold clickBlue; rw [h8]; simp
  · have h8 : (clickBlack^[8] wireSeqInit).black = 8 := (clickBlack_iterate 8).trans (by norm_num)
    generalize clickBlack^[8] wireSeqInit = w at h8 ⊢
    unfold clickBlack; rw [h8]; simp

/-- Toggling one more flag flips the parity of exactly that flag. -/
theorem flagOn_cons (i : Fin 4) (ts : List (Fin 4)) (j : Fin 4) :
    flagOn (i :: ts) j = ((decide (i = j)).xor (flagOn ts j)) := by
  unfold flagOn
  by_cases h : i = j
  · subst h
    rw [List.count_cons_self]
    simp only [decide_True, Bool.true_xor]
    rw [← decide_not]
    exact decide_eq_decide.mpr (by omega)
  · rw [List.count_cons_of_ne (Ne.symm h)]
    simp [h]

/-- Starting below 16, every toggle sequence stays below 16, and each of
the four bits of the resulting state is the initial bit xor the parity
of the number of toggles of that flag. -/
theorem cwRun_bits (ts : List (Fin 4)) (s : Nat) (hs : s < 16) :
    ts.foldl cwToggle s < 16 ∧
    ∀ j : Fin 4, (ts.foldl cwToggle s).testBit j.val = ((s.testBit j.val).xor (flagOn ts j)) := by
  induction ts generalizing s with
  | nil => exact ⟨hs, by simp [flagOn]⟩
  | cons i ts ih =>
    have hlt : cwToggle s i < 16 := by
      have h1 : s < 2 ^ 4 := by norm_num; omega
      have h2 : (1 <<< i.val) < 2 ^ 4 := by fin_cases i <;> decide
      have := Nat.xor_lt_two_pow h1 h2
      unfold cwToggle
      norm_num at this ⊢
      omega
    obtain ⟨ha, hb⟩ := ih (cwToggle s i) hlt
    refine ⟨ha, fun j => ?_⟩
    rw [List.foldl_cons, hb j, flagOn_cons]
    unfold cwToggle
    rw [Nat.testBit_xor]
    have hbit : (1 <<< i.val).testBit j.val = decide (i = j) := by
      fin_cases i <;> fin_cases j <;> decide
    rw [hbit, ← Bool.xor_assoc]

/-- Claim C2: for every sequence of indicator toggles starting from the
all-off flag set, the resulting state is a valid index (below 16) and
the displayed instruction is the fixed 16-entry table entry at the 4-bit
positional sum of the currently-on flags (LED contributes 1, STAR 2,
BLUE 4, RED 8, a flag being on iff it was toggled an odd number of
times) — so the output is a function of the current flag set alone,
independent of toggle order and history. -/
theorem complicated_wires_history_free (ts : List (Fin 4)) :
    cwRun ts < 16 ∧
    cwDisplay (cwRun ts) =
      cwTable.get? ((if flagOn ts 0 then 1 else 0) + (if flagOn ts 1 then 2 else 0)
        + (if flagOn ts 2 then 4 else 0) + (if flagOn ts 3 then 8 else 0)) ∧
    (cwDisplay (cwRun ts)).isSome = true := by
  obtain ⟨h16, hbits⟩ := cwRun_bits ts 0 (by norm_num)
  have hrun : cwRun ts < 16 := h16
  have h0 : (cwRun ts).testBit 0 = flagOn ts 0 := by simpa using hbits 0
  have h1 : (cwRun ts).testBit 1 = flagOn ts 1 := by simpa using hbits 1
  have h2 : (cwRun ts).testBit 2 = flagOn ts 2 := by simpa using hbits 2
  have h3 : (cwRun ts).testBit 3 = flagOn ts 3 := by simpa using hbits 3
  have hsum : ∀ n, n < 16 →
      n = (if n.testBit 0 then 1 else 0) + (if n.testBit 1 then 2 else 0)
        + (if n.testBit 2 then 4 else 0) + (if n.testBit 3 then 8 else 0) := by decide
  refine ⟨hrun, ?_, ?_⟩
  · unfold cwDisplay
    conv_lhs => rw [hsum (cwRun ts) hrun]
    rw [h0, h1, h2, h3]
  · unfold cwDisplay
    rw [List.get?_eq_get (show cwRun ts < cwTable.length from hrun)]
    rfl

/-- A tap preserves the selection invariant: no duplicates, at most 4. -/
theorem tap_inv (b : KeypadButton) (s : List KeypadButton) (h1 : s.Nodup) (h2 : s.length ≤ 4) :
    (tap b s).Nodup ∧ (tap b s).length ≤ 4 := by
  unfold tap
  by_cases hb : b = KeypadButton.none
  · simp [hb, h1, h2]
  rw [if_neg hb]
  by_cases hm : b ∈ s
  · rw [if_pos hm]
    refine ⟨h1.erase b, ?_⟩
    have := List.length_erase_of_mem hm
    omega
  · rw [if_neg hm]
    by_cases hl : s.length < 4
    · rw [if_pos hl]
      exact ⟨List.nodup_cons.mpr ⟨hm, h1⟩, by simp; omega⟩
    · rw [if_neg hl]; exact ⟨h1, h2⟩

/-- The invariant holds along every tap sequence from the empty selection. -/
theorem keypadRun_inv (taps : List KeypadButton) :
    (keypadRun taps).Nodup ∧ (keypadRun taps).length ≤ 4 := by
  suffices h : ∀ (ts : List KeypadButton) (s : List KeypadButton), s.Nodup → s.length ≤ 4 →
      (ts.foldl (fun s b => tap b s) s).Nodup ∧ (ts.foldl (fun s b => tap b s) s).length ≤ 4 by
    exact h taps [] (by simp) (by simp)
  intro ts
  induction ts with
  | nil => intro s h1 h2; exact ⟨h1, h2⟩
  | cons b ts ih =>
    intro s h1 h2
    obtain ⟨h1t, h2t⟩ := tap_inv b s h1 h2
    exact ih (tap b s) h1t h2t

/-- Claim C6: along every tap sequence from the empty selection the
selection never has more than 4 members; a tap on a selected symbol
removes it, and a tap on an unselected symbol while 4 are selected
leaves the selection unchanged (otherwise it is added). -/
theorem keypad_selection_at_most_four (taps : List KeypadButton) (b : KeypadButton)
    (hb : b ≠ KeypadButton.none) :
    (keypadRun taps).length ≤ 4 ∧
    tap b (keypadRun taps) =
      (if b ∈ keypadRun taps then (keypadRun taps).erase b
       else if (keypadRun taps).length = 4 then keypadRun taps
       else b :: keypadRun taps) := by
  obtain ⟨hnd, hlen⟩ := keypadRun_inv taps
  refine ⟨hlen, ?_⟩
  unfold tap
  rw [if_neg hb]
  by_cases hmem : b ∈ keypadRun taps
  · rw [if_pos hmem, if_pos hmem]
  · rw [if_neg hmem, if_neg hmem]
    by_cases h4 : (keypadRun taps).length = 4
    · rw [if_neg (by omega), if_pos h4]
    · rw [if_pos (by omega), if_neg h4]

/-- Witness for C6: tapping the fifth distinct symbol after four are
selected is rejected. -/
theorem keypad_selection_at_most_four_witness :
    (KeypadButton.Person ≠ KeypadButton.none) ∧
    ((keypadRun [.O, .A, .Lambda, .N, .Person]).length ≤ 4 ∧
     tap .Person (keypadRun [.O, .A, .Lambda, .N, .Person]) =
       (if KeypadButton.Person ∈ keypadRun [.O, .A, .Lambda, .N, .Person] then
          (keypadRun [.O, .A, .Lambda, .N, .Person]).erase .Person
        else if (keypadRun [.O, .A, .Lambda, .N, .Person]).length = 4 then
          keypadRun [.O, .A, .Lambda, .N, .Person]
        else KeypadButton.Person :: keypadRun [.O, .A, .Lambda, .N, .Person])) :=
  ⟨by decide, keypad_selection_at_most_four [.O, .A, .Lambda, .N, .Person] .Person (by decide)⟩

/-- find? only looks at the predicate values on the list members. -/
theorem find_congr {α : Type} (p q : α → Bool) (l : List α) (h : ∀ x ∈ l, p x = q x) :
    l.find? p = l.find? q := by
  induction l with
  | nil => rfl
  | cons a l ih =>
    rw [List.find?_cons, List.find?_cons, h a (by simp)]
    cases hq : q a
    · exact ih fun x hx => h x (by simp [hx])
    · rfl

/-- The selected symbols found in a column are selected. -/
theorem hits_subset (sel col : List KeypadButton) : hits sel col ⊆ sel := by
  intro a ha
  have := (List.mem_filter.mp ha).2
  simpa [List.contains] using this

/-- Acceptance test of a column: at least 4 selected symbols appear in
it iff exactly 4 symbols are selected and all of them appear in it. -/
theorem hits_four_iff (sel col : List KeypadButton) (hnd : sel.Nodup) (hle : sel.length ≤ 4)
    (hcol : col.Nodup) :
    4 ≤ (hits sel col).length ↔ (sel.length = 4 ∧ ∀ b ∈ sel, b ∈ col) := by
  have hhnd : (hits sel col).Nodup := hcol.filter _
  have hsub : hits sel col ⊆ sel := hits_subset sel col
  have hsp : List.Subperm (hits sel col) sel := hhnd.subperm hsub
  have hll : (hits sel col).length ≤ sel.length := hsp.length_le
  constructor
  · intro h4
    have hperm : (hits sel col).Perm sel := hsp.perm_of_length_le (by omega)
    refine ⟨by omega, fun b hb => ?_⟩
    have : b ∈ hits sel col := hperm.symm.subset hb
    exact (List.mem_filter.mp this).1
  · rintro ⟨h4, hall⟩
    have hselsub : sel ⊆ hits sel col := by
      intro b hb
      exact List.mem_filter.mpr ⟨hall b hb, by simpa [List.contains] using hb⟩
    have := (hnd.subperm hselsub).length_le
    omega

/-- The six column lists each hold 7 distinct symbols. -/
theorem keypadColumns_nodup : ∀ col ∈ keypadColumns, col.Nodup := by decide

/-- Claim C3 (amended): the resolver accepts the first column list that
contains all currently-selected symbols provided exactly 4 symbols are
selected (with fewer than 4 selected no column is accepted); when a
column is accepted the selected symbols get increasing ranks 1..4 in
position-within-list order and the output renders their display names in
that order, each followed by one space; when no column is accepted the
ranks are all cleared to 0 and the output is empty. -/
theorem keypad_rank_requires_four (sel : List KeypadButton) (hnd : sel.Nodup)
    (hle : sel.length ≤ 4) :
    winningColumn sel = claimWins sel ∧
    (∀ col, winningColumn sel = some col →
      keypadLabel sel = (hits sel col).foldl (fun a b => a ++ b.name ++ " ") "" ∧
      (hits sel col).length = 4 ∧ sel.length = 4 ∧
      ∀ b ∈ hits sel col, keypadRanks sel b = (hits sel col).indexOf b + 1) ∧
    (winningColumn sel = none → keypadLabel sel = "" ∧ ∀ b, keypadRanks sel b = 0) := by
  refine ⟨?_, ?_, ?_⟩
  · unfold winningColumn claimWins
    refine find_congr _ _ _ fun col hcol => ?_
    rw [Bool.eq_iff_iff, decide_eq_true_iff, Bool.and_eq_true, decide_eq_true_iff,
      List.all_eq_true, hits_four_iff sel col hnd hle (keypadColumns_nodup col hcol)]
    constructor
    · rintro ⟨h4, hall⟩
      exact ⟨h4, fun b hb => by simpa [List.contains] using hall b hb⟩
    · rintro ⟨h4, hall⟩
      exact ⟨h4, fun b hb => by simpa [List.contains] using hall b hb⟩
  · intro col hcol
    have hmem : col ∈ keypadColumns := List.mem_of_find?_eq_some hcol
    have hfour : 4 ≤ (hits sel col).length := by
      have := List.find?_some hcol
      simpa using this
    have hiff := (hits_four_iff sel col hnd hle (keypadColumns_nodup col hmem)).mp hfour
    have hhnd : (hits sel col).Nodup := (keypadColumns_nodup col hmem).filter _
    have hlen4 : (hits sel col).length = 4 := by
      have := ((hhnd.subperm (hits_subset sel col)).length_le)
      omega
    refine ⟨?_, hlen4, hiff.1, ?_⟩
    · unfold keypadLabel
      rw [hcol]
    · intro b hb
      have hc : (hits sel col).contains b = true := by simpa [List.contains] using hb
      unfold keypadRanks
      rw [hcol]
      show (if (hits sel col).contains b = true then List.indexOf b (hits sel col) + 1 else 0) =
        List.indexOf b (hits sel col) + 1
      rw [if_pos hc]
  · intro hcol
    constructor
    · unfold keypadLabel; rw [hcol]
    · intro b; unfold keypadRanks; rw [hcol]

/-- Witness for C3 at the selection O, A, Lambda, N (all in column 0). -/
theorem keypad_rank_requires_four_witness :
    ([KeypadButton.O, .A, .Lambda, .N].Nodup ∧ [KeypadButton.O, .A, .Lambda, .N].length ≤ 4) ∧
    (winningColumn [KeypadButton.O, .A, .Lambda, .N] = claimWins [KeypadButton.O, .A, .Lambda, .N] ∧
     (∀ col, winningColumn [KeypadButton.O, .A, .Lambda, .N] = some col →
       keypadLabel [KeypadButton.O, .A, .Lambda, .N] =
         (hits [KeypadButton.O, .A, .Lambda, .N] col).foldl (fun a b => a ++ b.name ++ " ") "" ∧
       (hits [KeypadButton.O, .A, .Lambda, .N] col).length = 4 ∧
       [KeypadButton.O, .A, .Lambda, .N].length = 4 ∧
       ∀ b ∈ hits [KeypadButton.O, .A, .Lambda, .N] col,
         keypadRanks [KeypadButton.O, .A, .Lambda, .N] b =
           (hits [KeypadButton.O, .A, .Lambda, .N] col).indexOf b + 1) ∧
     (winningColumn [KeypadButton.O, .A, .Lambda, .N] = none →
       keypadLabel [KeypadButton.O, .A, .Lambda, .N] = "" ∧
       ∀ b, keypadRanks [KeypadButton.O, .A, .Lambda, .N] b = 0)) :=
  ⟨⟨by decide, by decide⟩,
    keypad_rank_requires_four [KeypadButton.O, .A, .Lambda, .N] (by decide) (by decide)⟩

/-- Counterexample for C3 as stated: with the single reachable selection
O (one tap from empty), column list 0 contains every selected symbol,
yet the resolver clears the ranks (rank of O is 0, not 1) and outputs
the empty label, contradicting the claim that the first such column wins
and each selected symbol is rendered at its rank. -/
theorem keypad_single_selection_not_ranked :
    keypadRun [KeypadButton.O] = [KeypadButton.O] ∧
    (keypadColumns.any fun col =>
      (keypadRun [KeypadButton.O]).all fun b => col.contains b) = true ∧
    keypadLabel (keypadRun [KeypadButton.O]) = "" ∧
    keypadRanks (keypadRun [KeypadButton.O]) KeypadButton.O = 0 := by
  decide

/-- One position of the password filter, as a Bool test and as the
spec-worded condition. -/
theorem survivesPos (l : List Char) (c : Char) :
    (!(decide (0 < l.length)) || l.contains c) = true ↔ (l ≠ [] → c ∈ l) := by
  simp [List.contains, List.length_pos, or_iff_not_imp_left]

/-- A list of length 5 has exactly five members. -/
theorem list_len_five {α : Type} (l : List α) (h : l.length = 5) :
    ∃ a b c d e, l = [a, b, c, d, e] := by
  match l, h with
  | [a, b, c, d, e], _ => exact ⟨a, b, c, d, e, rfl⟩

/-- On 5-character words the source filter agrees with the spec-worded
survival condition. -/
theorem survives_data (p : List (List Char)) (w : String) (a b c d e : Char)
    (hw : w.data = [a, b, c, d, e]) :
    survives p w = decide (claimSurvives p w) := by
  rw [Bool.eq_iff_iff, decide_eq_true_iff]
  unfold survives claimSurvives
  rw [hw]
  constructor
  · intro h i
    simp only [List.enum, List.enumFrom, List.all_cons, List.all_nil, Bool.and_eq_true,
      Bool.and_true] at h
    obtain ⟨h0, h1, h2, h3, h4⟩ := h
    fin_cases i
    · exact (survivesPos _ _).mp h0
    · exact (survivesPos _ _).mp h1
    · exact (survivesPos _ _).mp h2
    · exact (survivesPos _ _).mp h3
    · exact (survivesPos _ _).mp h4
  · intro h
    simp only [List.enum, List.enumFrom, List.all_cons, List.all_nil, Bool.and_eq_true,
      Bool.and_true]
    exact ⟨(survivesPos _ _).mpr (h 0), (survivesPos _ _).mpr (h 1), (survivesPos _ _).mpr (h 2),
      (survivesPos _ _).mpr (h 3), (survivesPos _ _).mpr (h 4)⟩

/-- On the fixed 35-word table the source filter and the spec-worded
condition select the same words. -/
theorem passwords_filter_eq (p : List (List Char)) :
    PASSWORDS.filter (survives p) = PASSWORDS.filter (fun w => decide (claimSurvives p w)) := by
  have h5 : ∀ w ∈ PASSWORDS, w.data.length = 5 := by decide
  refine List.filter_congr fun w hw => ?_
  obtain ⟨a, b, c, d, e, hw5⟩ := list_len_five w.data (h5 w hw)
  exact survives_data p w a b c d e hw5

/-- String.join distributes over cons. -/
theorem join_cons (s : String) (l : List String) : String.join (s :: l) = s ++ String.join l := by
  rw [String.join_eq, String.join_eq]
  apply String.ext
  simp

/-- The push_str fold equals prefix-plus-join. -/
theorem foldl_push (l : List String) (acc : String) :
    l.foldl (fun a b => a ++ b ++ " ") acc = acc ++ String.join (l.map (fun w => w ++ " ")) := by
  induction l generalizing acc with
  | nil =>
    apply String.ext
    simp [String.join]
  | cons h t ih =>
    rw [List.foldl_cons, ih, List.map_cons, join_cons, String.append_assoc, String.append_assoc,
      String.append_assoc]

/-- Claim C1: after an edit of the password fields the output label is
the space-joined concatenation (each word followed by one space) of
exactly the words of the 35-word table — in table order, the duplicate
THINK preserved — such that for every position in 0..5 whose field is
non-empty the word letter at that position is a member of the text of
that field; positions with empty fields impose no constraint. -/
theorem passwords_label_eq_filter (p : List (List Char)) :
    passwordLabel p =
      String.join ((PASSWORDS.filter fun w => decide (claimSurvives p w)).map (fun w => w ++ " ")) := by
  unfold passwordLabel
  rw [passwords_filter_eq, foldl_push]
  apply String.ext
  simp

/-- A Bool-predicate implication turns filter into a sublist. -/
theorem filter_mono {α : Type} (l : List α) (p q : α → Bool)
    (h : ∀ a, p a = true → q a = true) :
    List.Sublist (l.filter p) (l.filter q) :=
  List.monotone_filter_right l h

/-- Setting a previously unconstrained field can only remove survivors. -/
theorem survives_set_of_empty (p : List (List Char)) (j : Nat) (s : List Char) (w : String)
    (h : p.getD j [] = []) :
    survives (p.set j s) w = true → survives p w = true := by
  unfold survives
  rw [List.all_eq_true, List.all_eq_true]
  intro hall ic hic
  have hpos := hall ic hic
  by_cases hij : ic.1 = j
  · rw [survivesPos]
    rw [hij, h]
    simp
  · have hg : (p.set j s).getD ic.1 [] = p.getD ic.1 [] := by
      rw [List.getD_eq_getElem?_getD, List.getD_eq_getElem?_getD,
        List.getElem?_set_ne (Ne.symm hij)]
    rw [hg] at hpos
    exact hpos

/-- Clearing a field can only add survivors. -/
theorem survives_clear (q : List (List Char)) (k : Nat) (w : String) :
    survives q w = true → survives (q.set k []) w = true := by
  unfold survives
  rw [List.all_eq_true, List.all_eq_true]
  intro hall ic hic
  have hpos := hall ic hic
  by_cases hik : ic.1 = k
  · rw [survivesPos]
    have hk : (q.set k []).getD k [] = [] := by
      by_cases hlt : k < q.length
      · rw [List.getD_eq_getElem?_getD, List.getElem?_set_self (by simpa using hlt)]
        rfl
      · rw [List.getD_eq_getElem?_getD, List.getElem?_eq_none (by simp; omega)]
        rfl
    rw [hik, hk]
    simp
  · have hg : (q.set k []).getD ic.1 [] = q.getD ic.1 [] := by
      rw [List.getD_eq_getElem?_getD, List.getD_eq_getElem?_getD,
        List.getElem?_set_ne (Ne.symm hik)]
    rw [hg]
    exact hpos

/-- Claim C9: making a previously empty field non-empty (adding a letter
constraint) can only shrink the set of surviving candidate words, and
clearing any field of any configuration can only enlarge it (or leave it
unchanged). -/
theorem password_filter_monotone (p : List (List Char)) (j : Nat) (s : List Char)
    (h : p.getD j [] = []) :
    List.Sublist (PASSWORDS.filter (survives (p.set j s))) (PASSWORDS.filter (survives p)) ∧
    ∀ (q : List (List Char)) (k : Nat),
      List.Sublist (PASSWORDS.filter (survives q)) (PASSWORDS.filter (survives (q.set k []))) := by
  constructor
  · exact filter_mono _ _ _ fun w => survives_set_of_empty p j s w h
  · intro q k
    exact filter_mono _ _ _ fun w => survives_clear q k w

/-- Witness for C9: constraining position 0 to the letter A from the
all-empty configuration. -/
theorem password_filter_monotone_witness :
    ([([] : List Char), [], [], [], []].getD 0 [] = []) ∧
    (List.Sublist (PASSWORDS.filter (survives ([([] : List Char), [], [], [], []].set 0 ['A'])))
        (PASSWORDS.filter (survives [([] : List Char), [], [], [], []])) ∧
     ∀ (q : List (List Char)) (k : Nat),
       List.Sublist (PASSWORDS.filter (survives q)) (PASSWORDS.filter (survives (q.set k [])))) :=
  ⟨by decide, password_filter_monotone [([] : List Char), [], [], [], []] 0 ['A'] (by decide)⟩

/-- Claim C7 (amended): clicking Reset from any Memory state s in 0..=9
returns the resolver to state 0, but the six recorded values are not
cleared in that same transition — for s other than 0 they are carried
over unchanged; they are cleared at the start of the next step processed
in state 0, before any input of that step is handled, so from state 0
onward the behavior is as if all six values had been cleared. -/
theorem memory_reset_two_phase (s : Nat) (m : MemoryRec) (h : s ≤ 9) :
    step ⟨.memory, s, m⟩ .reset =
      some ⟨.memory, 0, if s = 0 then MemoryRec.default else m⟩ ∧
    ∀ inp, step ⟨.memory, 0, m⟩ inp = step ⟨.memory, 0, MemoryRec.default⟩ inp := by
  constructor
  · interval_cases s <;> rfl
  · intro inp
    cases inp <;> rfl

/-- Witness for C7 at state 5 with a non-default record. -/
theorem memory_reset_two_phase_witness :
    (5 ≤ 9) ∧
    (step ⟨.memory, 5, { MemoryRec.default with position1 := 2 }⟩ .reset =
       some ⟨.memory, 0, if 5 = 0 then MemoryRec.default
                         else { MemoryRec.default with position1 := 2 }⟩ ∧
     ∀ inp, step ⟨.memory, 0, { MemoryRec.default with position1 := 2 }⟩ inp =
       step ⟨.memory, 0, MemoryRec.default⟩ inp) :=
  ⟨by decide, memory_reset_two_phase 5 { MemoryRec.default with position1 := 2 } (by decide)⟩

/-- Counterexample for C7 as stated: select Memory from the menu, click
the option "3: position 3" (recording position1 = 3, state 1), then
click Reset.  The resolver is back in state 0 but position1 is still 3,
so the six recorded values were not cleared in the Reset transition. -/
theorem memory_reset_keeps_values :
    runG [.menuSelect .memory, .choice 2, .reset] =
      some ⟨.memory, 0, { MemoryRec.default with position1 := 3 }⟩ ∧
    ({ MemoryRec.default with position1 := 3 } : MemoryRec) ≠ MemoryRec.default := by
  decide

/-- Every in-range Memory state steps to an in-range Memory state, with
no panic, under every input. -/
theorem memoryMatch_le (s : Nat) (m : MemoryRec) (inp : GInput) (h : s ≤ 9) :
    ∃ s2 m2, memoryMatch s m inp = some (s2, m2) ∧ s2 ≤ 9 := by
  interval_cases s <;> cases inp <;> first
    | exact ⟨_, _, rfl, by omega⟩
    | (rename_i n; rcases n with _ | _ | _ | _ | n <;> exact ⟨_, _, rfl, by omega⟩)

/-- The Memory arm in one equation: a Menu click runs the state match
with no option clicks and moves to the menu, every other event runs it
with that event. -/
theorem step_memory_eq (s : Nat) (m : MemoryRec) (inp : GInput) :
    step ⟨.memory, s, m⟩ inp =
      (memoryMatch s m (if inp = .menuButton then .idle else inp)).map
        fun sm => ⟨if inp = .menuButton then Module.menu else .memory, sm.1, sm.2⟩ := by
  cases inp <;> rfl

/-- Single-step preservation of the state-range invariants, and absence
of panic. -/
theorem step_inv (mod : Module) (s : Nat) (m : MemoryRec)
    (hw : mod = .wires → s ≤ 4) (hm : mod = .memory → s ≤ 9)
    (hc : mod = .complicatedWires → s < 16) (inp : GInput) :
    ∃ g2, step ⟨mod, s, m⟩ inp = some g2 ∧
      (g2.module = .wires → g2.state ≤ 4) ∧ (g2.module = .memory → g2.state ≤ 9) ∧
      (g2.module = .complicatedWires → g2.state < 16) := by
  cases mod with
  | menu =>
    cases inp <;> first
      | (rename_i m2; cases m2 <;> exact ⟨_, rfl, by simp, by simp, by simp⟩)
      | exact ⟨_, rfl, by simp, by simp, by simp⟩
  | wires =>
    have hs := hw rfl
    cases inp with
    | menuButton => exact ⟨_, rfl, by simp, by simp, by simp⟩
    | reset => exact ⟨_, rfl, by simp, by simp, by simp⟩
    | wiresChoice n =>
      simp only [step, wiresStep]
      by_cases h0 : s = 0
      · rw [if_pos h0]
        by_cases hn : n < 4
        · rw [if_pos hn]
          exact ⟨_, rfl, by simp; omega, by simp, by simp⟩
        · rw [if_neg hn]
          exact ⟨_, rfl, by simpa using hs, by simp, by simp⟩
      · rw [if_neg h0, if_pos hs]
        exact ⟨_, rfl, by simpa using hs, by simp, by simp⟩
    | idle => exact ⟨_, by simp only [step, wiresStep]; rw [if_pos hs], by simpa using hs, by simp, by simp⟩
    | menuSelect m2 =>
      exact ⟨_, by simp only [step, wiresStep]; rw [if_pos hs], by simpa using hs, by simp, by simp⟩
    | choice n => exact ⟨_, by simp only [step, wiresStep]; rw [if_pos hs], by simpa using hs, by simp, by simp⟩
    | whosPosition i =>
      exact ⟨_, by simp only [step, wiresStep]; rw [if_pos hs], by simpa using hs, by simp, by simp⟩
    | whosButton i =>
      exact ⟨_, by simp only [step, wiresStep]; rw [if_pos hs], by simpa using hs, by simp, by simp⟩
    | compToggle i =>
      exact ⟨_, by simp only [step, wiresStep]; rw [if_pos hs], by simpa using hs, by simp, by simp⟩
    | passwordField i =>
      exact ⟨_, by simp only [step, wiresStep]; rw [if_pos hs], by simpa using hs, by simp, by simp⟩
  | button =>
    cases inp <;> exact ⟨_, rfl, by simp, by simp, by simp⟩
  | keypad =>
    cases inp <;> exact ⟨_, rfl, by simp, by simp, by simp⟩
  | simonSays =>
    cases inp <;> exact ⟨_, rfl, by simp, by simp, by simp⟩
  | morseCode =>
    cases inp <;> exact ⟨_, rfl, by simp, by simp, by simp⟩
  | wireSequences =>
    cases inp <;> exact ⟨_, rfl, by simp, by simp, by simp⟩
  | mazes =>
    cases inp <;> exact ⟨_, rfl, by simp, by simp, by simp⟩
  | knobs =>
    cases inp <;> exact ⟨_, rfl, by simp, by simp, by simp⟩
  | whosOnFirst =>
    cases inp <;> first
      | exact ⟨_, rfl, by simp, by simp, by simp⟩
      | (simp only [step, whosStep]; split <;> exact ⟨_, rfl, by simp, by simp, by simp⟩)
  | memory =>
    rw [step_memory_eq]
    obtain ⟨s2, m2, hmm2, hs2⟩ :=
      memoryMatch_le s m (if inp = .menuButton then .idle else inp) (hm rfl)
    rw [hmm2]
    refine ⟨_, rfl, ?_, ?_, ?_⟩ <;> by_cases hmb : inp = .menuButton <;> simp [hmb, hs2]
  | complicatedWires =>
    have hcw := hc rfl
    cases inp with
    | menuButton => exact ⟨_, rfl, by simp, by simp, by simp⟩
    | reset => exact ⟨_, rfl, by simp, by simp, by simp⟩
    | compToggle i =>
      simp only [step, cwStep]
      by_cases hi : i < 4
      · rw [dif_pos hi]
        have hx : cwToggle s ⟨i, hi⟩ < 16 := by
          have h1 : s < 2 ^ 4 := by norm_num; omega
          have h2 : (1 <<< i) < 2 ^ 4 := by interval_cases i <;> decide
          have := Nat.xor_lt_two_pow h1 h2
          unfold cwToggle
          norm_num at this ⊢
          omega
        rw [if_pos hx]
        exact ⟨_, rfl, by simp, by simp, by simpa using hx⟩
      · rw [dif_neg hi, if_pos hcw]
        exact ⟨_, rfl, by simp, by simp, by simpa using hcw⟩
    | idle => exact ⟨_, by simp only [step, cwStep]; rw [if_pos hcw], by simp, by simp, by simpa using hcw⟩
    | menuSelect m2 =>
      exact ⟨_, by simp only [step, cwStep]; rw [if_pos hcw], by simp, by simp, by simpa using hcw⟩
    | choice n =>
      exact ⟨_, by simp only [step, cwStep]; rw [if_pos hcw], by simp, by simp, by simpa using hcw⟩
    | wiresChoice n =>
      exact ⟨_, by simp only [step, cwStep]; rw [if_pos hcw], by simp, by simp, by simpa using hcw⟩
    | whosPosition i =>
      exact ⟨_, by simp only [step, cwStep]; rw [if_pos hcw], by simp, by simp, by simpa using hcw⟩
    | whosButton i =>
      exact ⟨_, by simp only [step, cwStep]; rw [if_pos hcw], by simp, by simp, by simpa using hcw⟩
    | passwordField i =>
      exact ⟨_, by simp only [step, cwStep]; rw [if_pos hcw], by simp, by simp, by simpa using hcw⟩
  | passwords =>
    cases inp <;> first
      | exact ⟨_, rfl, by simp, by simp, by simp⟩
      | (simp only [step, passStep]; split <;> exact ⟨_, rfl, by simp, by simp, by simp⟩)

/-- The invariants hold along every run, and no run panics. -/
theorem runFrom_inv (inps : List GInput) : ∀ g : GState,
    (g.module = .wires → g.state ≤ 4) → (g.module = .memory → g.state ≤ 9) →
    (g.module = .complicatedWires → g.state < 16) →
    ∃ g2, runFrom g inps = some g2 ∧ (g2.module = .wires → g2.state ≤ 4) ∧
      (g2.module = .memory → g2.state ≤ 9) ∧ (g2.module = .complicatedWires → g2.state < 16) := by
  induction inps with
  | nil => intro g h1 h2 h3; exact ⟨g, rfl, h1, h2, h3⟩
  | cons i rest ih =>
    intro g h1 h2 h3
    obtain ⟨mod, s, m⟩ := g
    obtain ⟨g2, hstep, k1, k2, k3⟩ := step_inv mod s m h1 h2 h3 i
    obtain ⟨g3, hrun, j1, j2, j3⟩ := ih g2 k1 k2 k3
    refine ⟨g3, ?_, j1, j2, j3⟩
    simp only [runFrom, hstep]
    exact hrun

/-- Claim C8: starting from the menu, every sequence of user inputs
leads to a defined state (no panic arm is ever reached), and whenever
the Wires module is active its state lies in 0..=4 while whenever the
Memory module is active its state lies in 0..=9. -/
theorem state_in_range_reachable (inps : List GInput) :
    ∃ g, runG inps = some g ∧ (g.module = .wires → g.state ≤ 4) ∧
      (g.module = .memory → g.state ≤ 9) := by
  obtain ⟨g, h, h1, h2, _⟩ :=
    runFrom_inv inps initG (by simp [initG]) (by simp [initG]) (by simp [initG])
  exact ⟨g, h, h1, h2⟩

end Ktane
